import Mathlib

/-!
Verification development for the custom-codeowners approval checker
(`.github/scripts/check_approvals.py`).

The core of the program is embedded shallowly:

* `parse_codeowners` — the rule-file parser (comment stripping, line
  continuation folding, shlex tokenization, pattern expansion, team-owner
  filtering);
* `pathMatch` — Python's `pathlib.PurePath.match` for POSIX relative paths
  (per-segment `fnmatch`, right-anchored for relative patterns, raising
  `ValueError` on patterns with no components);
* `check_file_coverage` / `findOwners` — the reverse-scan resolver and the
  coverage evaluator;
* `get_approved_users` — accumulation of approving reviewers over pages.

Strings are modelled as `List Char` internally (converted at the API
boundary) so that every function is structurally recursive and evaluates by
kernel reduction.  Python sets are modelled as `Finset String`; Python
exceptions as `Except String`.
-/

deriving instance DecidableEq for Except

namespace CheckApprovals

/-- Backslash character (written via its code point to keep source plain). -/
def chBS : Char := Char.ofNat 92

/-- Single-quote character. -/
def chSQ : Char := Char.ofNat 39

/-- Double-quote character. -/
def chDQ : Char := Char.ofNat 34

/-- Python `str.strip()` whitespace: space, tab, newline, carriage return,
vertical tab, form feed (non-ASCII whitespace is not modelled). -/
def isPySpace (c : Char) : Bool :=
  c == ' ' || c == '\t' || c == '\n' || c == '\r' || c == Char.ofNat 11 || c == Char.ofNat 12

/-- Python `str.strip()`: drop leading and trailing whitespace. -/
def pyStrip (l : List Char) : List Char :=
  ((l.dropWhile isPySpace).reverse.dropWhile isPySpace).reverse

/-- Models `line.split('#', 1)[0]`: the text before the first `#`
(the whole line when there is none). -/
def stripComment (l : List Char) : List Char :=
  l.takeWhile (fun c => c != '#')

/-- Models `content.replace('\\\n', ' ')`: every backslash immediately
followed by a newline is replaced (left to right, non-overlapping) by a
single space. -/
def replaceContinuations : List Char → List Char
  | [] => []
  | [c] => [c]
  | c :: c2 :: t2 =>
    if c = chBS ∧ c2 = '\n' then ' ' :: replaceContinuations t2
    else c :: replaceContinuations (c2 :: t2)

/-- Helper for `splitLinesPy`: consume one line plus its terminator.
`cur` is the text of the current line accumulated so far. -/
def splitLinesCore : List Char → List Char → List (List Char)
  | [], cur => [cur]
  | ['\n'], cur => [cur]
  | ['\r'], cur => [cur]
  | ['\r', '\n'], cur => [cur]
  | '\r' :: '\n' :: t, cur => cur :: splitLinesCore t []
  | '\n' :: t, cur => cur :: splitLinesCore t []
  | '\r' :: t, cur => cur :: splitLinesCore t []
  | c :: t, cur => splitLinesCore t (cur ++ [c])

/-- Python `str.splitlines()` restricted to `\n`, `\r`, `\r\n` boundaries
(the exotic unicode line boundaries are not modelled): no trailing empty
line for a trailing terminator, and `[]` on empty input. -/
def splitLinesPy (l : List Char) : List (List Char) :=
  if l.isEmpty then [] else splitLinesCore l []

/-- State of the `shlex` POSIX tokenizer:
between tokens, inside a word, inside single quotes, inside double quotes,
after a backslash in a word, after a backslash inside double quotes. -/
inductive ShState where
  | ws
  | word
  | sq
  | dq
  | escW
  | escD
deriving DecidableEq

/-- `shlex` whitespace characters. -/
def isShWs (c : Char) : Bool :=
  c == ' ' || c == '\t' || c == '\r' || c == '\n'

/-- The `shlex.split` state machine (POSIX mode, whitespace splitting, no
comment characters).  `cur` is the token built so far and `q` records
whether the current token went through a quoted section (so that an empty
quoted token is still emitted). -/
def shlexRun : ShState → List Char → Bool → List Char → Except String (List (List Char))
  | st, cur, q, [] =>
    match st with
    | .ws => .ok []
    | .word => if cur.isEmpty && !q then .ok [] else .ok [cur]
    | .sq => .error "No closing quotation"
    | .dq => .error "No closing quotation"
    | .escW => .error "No escaped character"
    | .escD => .error "No escaped character"
  | st, cur, q, c :: t =>
    match st with
    | .ws =>
      if isShWs c then shlexRun .ws [] false t
      else if c = chSQ then shlexRun .sq [] true t
      else if c = chDQ then shlexRun .dq [] true t
      else if c = chBS then shlexRun .escW [] false t
      else shlexRun .word [c] false t
    | .word =>
      if isShWs c then
        if cur.isEmpty && !q then shlexRun .ws [] false t
        else (shlexRun .ws [] false t).map (fun toks => cur :: toks)
      else if c = chSQ then shlexRun .sq cur true t
      else if c = chDQ then shlexRun .dq cur true t
      else if c = chBS then shlexRun .escW cur q t
      else shlexRun .word (cur ++ [c]) q t
    | .sq =>
      if c = chSQ then shlexRun .word cur q t
      else shlexRun .sq (cur ++ [c]) q t
    | .dq =>
      if c = chDQ then shlexRun .word cur q t
      else if c = chBS then shlexRun .escD cur q t
      else shlexRun .dq (cur ++ [c]) q t
    | .escW => shlexRun .word (cur ++ [c]) q t
    | .escD =>
      if c = chDQ || c = chBS then shlexRun .dq (cur ++ [c]) q t
      else shlexRun .dq (cur ++ [chBS, c]) q t

/-- Models Python `shlex.split(line)` (POSIX rules). -/
def shlexSplit (l : List Char) : Except String (List (List Char)) :=
  shlexRun .ws [] false l

/-- Split on `/`, keeping empty segments (raw split). -/
def splitOnSlash : List Char → List (List Char)
  | [] => [[]]
  | c :: t =>
    let r := splitOnSlash t
    if c = '/' then [] :: r
    else
      match r with
      | [] => [[c]]
      | seg :: rest => (c :: seg) :: rest

/-- Path components as computed by `pathlib` for POSIX paths: split on `/`,
dropping empty segments and `.` segments (the root is handled separately). -/
def partsOfL (l : List Char) : List (List Char) :=
  (splitOnSlash l).filter (fun seg => !seg.isEmpty && seg != ['.'])

/-- Membership test for an `fnmatch` character class whose raw content
(between the brackets) is the first argument: `x-y` denotes a range, other
characters are literals; an empty range matches nothing. -/
def classMem : List Char → Char → Bool
  | [], _ => false
  | [x], c => x == c
  | [x, y], c => x == c || y == c
  | x :: y :: z :: rest, c =>
    if y = '-' then (x ≤ c && c ≤ z) || classMem rest c
    else x == c || classMem (y :: z :: rest) c

/-- Split at the first `]`, returning the content before it and the rest. -/
def splitAtRBrack : List Char → Option (List Char × List Char)
  | [] => none
  | c :: t =>
    if c = ']' then some ([], t)
    else
      match splitAtRBrack t with
      | none => none
      | some (a, b) => some (c :: a, b)

/-- Parse an `fnmatch` character class from the text following `[`:
a leading `!` negates, a `]` right after that is a literal member, and the
class ends at the next `]`.  `none` when there is no closing `]` (then `[`
is matched literally, as in `fnmatch.translate`). -/
def parseCharClass (ps : List Char) : Option (Bool × List Char × List Char) :=
  let (neg, ps1) : Bool × List Char :=
    match ps with
    | '!' :: t => (true, t)
    | _ => (false, ps)
  match ps1 with
  | ']' :: t =>
    (match splitAtRBrack t with
     | none => none
     | some (a, b) => some (neg, ']' :: a, b))
  | _ =>
    (match splitAtRBrack ps1 with
     | none => none
     | some (a, b) => some (neg, a, b))

/-- Fuel-indexed core of `fnmatch.fnmatchcase` on a single path segment:
`*` matches any run of characters, `?` any single character, `[...]` a
character class, anything else itself.  The fuel only drives structural
recursion; `fnmatchSeg` supplies enough for full evaluation. -/
def fnmatchAux : Nat → List Char → List Char → Bool
  | 0, _, _ => false
  | _ + 1, [], s => s.isEmpty
  | fuel + 1, p :: ps, s =>
    if p = '*' then
      fnmatchAux fuel ps s ||
        (match s with
         | [] => false
         | _ :: s1 => fnmatchAux fuel (p :: ps) s1)
    else if p = '?' then
      (match s with
       | [] => false
       | _ :: s1 => fnmatchAux fuel ps s1)
    else if p = '[' then
      match parseCharClass ps with
      | some (neg, content, rest) =>
        (match s with
         | [] => false
         | c :: s1 =>
           (if neg then !(classMem content c) else classMem content c) && fnmatchAux fuel rest s1)
      | none =>
        (match s with
         | [] => false
         | c :: s1 => p == c && fnmatchAux fuel ps s1)
    else
      match s with
      | [] => false
      | c :: s1 => p == c && fnmatchAux fuel ps s1

/-- `fnmatch.fnmatchcase(seg, pat)` on one path segment. -/
def fnmatchSeg (pat seg : List Char) : Bool :=
  fnmatchAux (pat.length + seg.length + 1) pat seg

/-- Match reversed file segments against reversed pattern segments, pairing
from the right and stopping at the shorter list (Python's `zip`). -/
def zipMatch : List (List Char) → List (List Char) → Bool
  | f :: fs, p :: ps => fnmatchSeg p f && zipMatch fs ps
  | _, _ => true

/-- Boolean part of `PurePosixPath(filepath).match(pattern)`: a relative
pattern is matched segment-wise from the right (the path may be longer); an
absolute pattern requires an absolute path of exactly the same length.
Intended for the relative repository paths the program deals in. -/
def matchBool (filepath pattern : String) : Bool :=
  let fl := filepath.toList
  let pl := pattern.toList
  let fParts := partsOfL fl
  let patParts := partsOfL pl
  let fAbs : Bool := match fl with | '/' :: _ => true | _ => false
  let patAbs : Bool := match pl with | '/' :: _ => true | _ => false
  if patAbs then
    fAbs && fParts.length == patParts.length && zipMatch fParts.reverse patParts.reverse
  else
    patParts.length ≤ fParts.length && zipMatch fParts.reverse patParts.reverse

/-- `PurePosixPath(filepath).match(pattern)`: raises `ValueError` (modelled
as `Except.error`) when the pattern has no components. -/
def pathMatch (filepath pattern : String) : Except String Bool :=
  if (partsOfL pattern.toList).isEmpty then .error "empty pattern"
  else .ok (matchBool filepath pattern)

/-- A parsed rule: the expanded pattern list and the owner set, as built by
`parse_codeowners` (`{'patterns': final_patterns, 'owners': owners}`). -/
structure Rule where
  patterns : List String
  owners : Finset String
deriving DecidableEq

/-- Models `o.replace('@', '')`: remove every `@` character. -/
def stripMarkers (o : List Char) : List Char :=
  o.filter (fun c => c != '@')

/-- Models `{o.replace('@', '') for o in owner_strings if '/' not in o}`:
drop team owners (tokens containing `/`), strip `@` markers from the rest,
collect into a set. -/
def ownersOf (ownerStrings : List (List Char)) : Finset String :=
  ((ownerStrings.filter (fun o => !(o.contains '/'))).map
    (fun o => String.mk (stripMarkers o))).toFinset

/-- Does the pattern end in `/**`? -/
def endsWithDirWild (p : List Char) : Bool :=
  match p.reverse with
  | '*' :: '*' :: '/' :: _ => true
  | _ => false

/-- Does the pattern start with `/` (`raw_pattern.startswith('/')`)? -/
def startsWithSlash : List Char → Bool
  | [] => false
  | c :: _ => c == '/'

/-- Pattern expansion from `parse_codeowners`: `*` and `**` kept as-is, a
leading `/` stripped (root-anchored form), any other pattern doubled into
the literal form and a `**/`-prefixed form; then every form ending in `/**`
(other than bare `**`) gets `/*` appended. -/
def expandPatterns (raw : List Char) : List String :=
  let patternsToCheck : List (List Char) :=
    if raw = ['*'] then [['*']]
    else if raw = ['*', '*'] then [['*', '*']]
    else if startsWithSlash raw then [raw.tail]
    else [raw, '*' :: '*' :: '/' :: raw]
  (patternsToCheck.map (fun p =>
    if endsWithDirWild p && p != ['*', '*'] then p ++ ['/', '*'] else p)).map String.mk

/-- Processing of one logical line of the rule file: strip the comment,
trim, skip blank lines, tokenize with `shlex` (`none` on a tokenizer
error), take the first token as the raw pattern and the rest as owner
strings, and skip the line when the owner set is empty. -/
def parseLineL (line : List Char) : Option Rule :=
  let l := pyStrip (stripComment line)
  if l.isEmpty then none
  else
    match shlexSplit l with
    | .error _ => none
    | .ok [] => none
    | .ok (rawPattern :: ownerStrings) =>
      let owners := ownersOf ownerStrings
      if owners = ∅ then none
      else some ⟨expandPatterns rawPattern, owners⟩

/-- The parser loop over logical lines, keeping source order. -/
def parseLines (ls : List (List Char)) : List Rule :=
  ls.filterMap parseLineL

/-- Models `parse_codeowners` on the rule-file text (the file read itself,
which can only fail fatally, is outside this model): fold `\`-newline
continuations, split into lines, and process each line. -/
def parse_codeowners (content : String) : List Rule :=
  parseLines (splitLinesPy (replaceContinuations content.toList))

/-- The inner loop of `check_file_coverage`: try each of the rule's
patterns in order until one matches (propagating a `ValueError` from
`Path.match`). -/
def patternsMatch (f : String) : List String → Except String Bool
  | [] => .ok false
  | p :: ps =>
    match pathMatch f p with
    | .error e => .error e
    | .ok true => .ok true
    | .ok false => patternsMatch f ps

/-- Python truthiness of the `found_owners` variable (`None` and the empty
set are both falsy). -/
def truthy : Option (Finset String) → Bool
  | none => false
  | some s => !(s = ∅ : Bool)

/-- The rule loop of `check_file_coverage` over the already-reversed rule
list: on a pattern match, `found_owners` is assigned the rule's owner set
and the loop breaks only when that set is truthy (non-empty), mirroring
`if found_owners: break`. -/
def coverageScan (f : String) (acc : Option (Finset String)) :
    List Rule → Except String (Option (Finset String))
  | [] => .ok acc
  | r :: rest =>
    match patternsMatch f r.patterns with
    | .error e => .error e
    | .ok true =>
      if truthy (some r.owners) then .ok (some r.owners)
      else coverageScan f (some r.owners) rest
    | .ok false =>
      if truthy acc then .ok acc
      else coverageScan f acc rest

/-- The resolver: scan the rules in reverse (`reversed(rules)`) starting
from `found_owners = None`. -/
def findOwners (rules : List Rule) (f : String) : Except String (Option (Finset String)) :=
  coverageScan f none rules.reverse

/-- One entry of the `uncovered_files_list` produced by
`check_file_coverage`.  The entries are f-strings in the source; they are
kept structured here because Python renders `', '.join(found_owners)` in an
unspecified set-iteration order. -/
inductive UncoveredEntry where
  | noOwner (file : String)
  | insuffApproval (file : String) (required : Finset String)
deriving DecidableEq

/-- Models `check_file_coverage`: for each changed file in order, resolve
its owners; a falsy result (no rule matched) contributes a no-owner entry,
a non-empty owner set with empty intersection against the approvers
contributes an insufficient-approval entry, and a non-empty intersection
contributes nothing (the file is covered). -/
def check_file_coverage (changed_files : List String) (rules : List Rule)
    (approved_users : Finset String) : Except String (List UncoveredEntry) :=
  match changed_files with
  | [] => .ok []
  | f :: fs =>
    match findOwners rules f with
    | .error e => .error e
    | .ok found_owners =>
      match found_owners with
      | none =>
        (check_file_coverage fs rules approved_users).map (fun l => .noOwner f :: l)
      | some s =>
        if s = ∅ then
          (check_file_coverage fs rules approved_users).map (fun l => .noOwner f :: l)
        else if approved_users ∩ s = ∅ then
          (check_file_coverage fs rules approved_users).map (fun l => .insuffApproval f s :: l)
        else check_file_coverage fs rules approved_users

/-- A pull-request review as consumed by `get_approved_users`:
`review['user']['login']` and `review['state']`. -/
structure Review where
  user : String
  state : String
deriving DecidableEq

/-- The approving users collected from one page of reviews:
`{review['user']['login'] for review in data if review['state'] == 'APPROVED'}`. -/
def approvedInPage (page : List Review) : Finset String :=
  ((page.filter (fun rv => rv.state == "APPROVED")).map (fun rv => rv.user)).toFinset

/-- Models `get_approved_users` with the paginated fetch materialized as a
list of pages: starting from the empty set, each page's approvers are
added (`all_approved_users.update(approved_in_page)`). -/
def get_approved_users (pages : List (List Review)) : Finset String :=
  pages.foldl (fun acc page => acc ∪ approvedInPage page) ∅

/-! ## Helper lemmas -/

/-- A pattern is well-formed for `Path.match` when it has at least one path
component; on any other pattern `Path.match` raises `ValueError`, so the
resolver can only be described functionally on well-formed patterns.  This
matches the data model's requirement that patterns be glob patterns. -/
def wfPattern (p : String) : Prop :=
  partsOfL p.toList ≠ []

instance (p : String) : Decidable (wfPattern p) := by
  unfold wfPattern; infer_instance

/-- Decidable form of "some expanded pattern of the rule matches the file". -/
def ruleMatchesB (r : Rule) (f : String) : Bool :=
  r.patterns.any (fun p => matchBool f p)

theorem pathMatch_eq_ok (f p : String) (h : wfPattern p) :
    pathMatch f p = .ok (matchBool f p) := by
  have hne : (partsOfL p.toList).isEmpty = false := by
    cases hp : partsOfL p.toList with
    | nil => exact absurd hp h
    | cons a t => rfl
  simp only [pathMatch, hne, Bool.false_eq_true, if_false]

theorem patternsMatch_of_wf (f : String) (ps : List String)
    (h : ∀ p ∈ ps, wfPattern p) :
    patternsMatch f ps = .ok (ps.any (fun p => matchBool f p)) := by
  induction ps with
  | nil => rfl
  | cons p ps ih =>
    have hp : wfPattern p := h p (by simp)
    have hrest : ∀ q ∈ ps, wfPattern q := fun q hq => h q (by simp [hq])
    simp only [patternsMatch, pathMatch_eq_ok f p hp]
    cases hm : matchBool f p with
    | false => simp [hm, ih hrest]
    | true => simp [hm]

/-- On well-formed rules with non-empty owner sets, the scan returns the
owner set of the first rule (in scan order) that matches, and `none` when
no rule matches. -/
theorem coverageScan_find (f : String) (l : List Rule)
    (hwf : ∀ r ∈ l, ∀ p ∈ r.patterns, wfPattern p)
    (hown : ∀ r ∈ l, r.owners ≠ ∅) :
    coverageScan f none l = .ok ((l.find? (fun r => ruleMatchesB r f)).map Rule.owners) := by
  induction l with
  | nil => rfl
  | cons r rest ih =>
    have h1 : ∀ p ∈ r.patterns, wfPattern p := hwf r (by simp)
    have h2 : r.owners ≠ ∅ := hown r (by simp)
    simp only [coverageScan, patternsMatch_of_wf f r.patterns h1]
    cases hm : r.patterns.any (fun p => matchBool f p) with
    | true =>
      have ht : truthy (some r.owners) = true := by simp [truthy, h2]
      simp [hm, ht, List.find?, ruleMatchesB]
    | false =>
      have ihr := ih (fun r' hr' => hwf r' (by simp [hr'])) (fun r' hr' => hown r' (by simp [hr']))
      simp [hm, truthy, List.find?, ruleMatchesB, ihr]

/-- `findOwners` in terms of `find?` over the reversed rule list. -/
theorem findOwners_find (rules : List Rule) (f : String)
    (hwf : ∀ r ∈ rules, ∀ p ∈ r.patterns, wfPattern p)
    (hown : ∀ r ∈ rules, r.owners ≠ ∅) :
    findOwners rules f =
      .ok ((rules.reverse.find? (fun r => ruleMatchesB r f)).map Rule.owners) := by
  unfold findOwners
  exact coverageScan_find f rules.reverse
    (fun r hr => hwf r (List.mem_reverse.1 hr))
    (fun r hr => hown r (List.mem_reverse.1 hr))

/-! ## Claim theorems -/

/-- Claim C1: last-match-wins precedence.  For every rule list (with the
data model's invariants: well-formed glob patterns, non-empty owner sets)
and every file, the resolver scans the rules in reverse and returns the
owner set of the matching rule that appears last in source order,
regardless of how many earlier rules also match: when a rule `r` matches
and every rule after it fails to match, the result is exactly `r`'s owner
set. -/
theorem resolve_last_match_wins
    (pre post : List Rule) (r : Rule) (f : String)
    (hwf : ∀ r' ∈ pre ++ r :: post, ∀ p ∈ r'.patterns, wfPattern p)
    (hown : ∀ r' ∈ pre ++ r :: post, r'.owners ≠ ∅)
    (hr : ruleMatchesB r f = true)
    (hpost : ∀ r' ∈ post, ruleMatchesB r' f = false) :
    findOwners (pre ++ r :: post) f = .ok (some r.owners) := by
  rw [findOwners_find _ _ hwf hown]
  have hrev : (pre ++ r :: post).reverse = post.reverse ++ r :: pre.reverse := by
    simp
  rw [hrev, List.find?_append]
  have hnone : post.reverse.find? (fun r' => ruleMatchesB r' f) = none := by
    rw [List.find?_eq_none]
    intro x hx
    simp [hpost x (List.mem_reverse.1 hx)]
  rw [hnone]
  simp [List.find?, hr]

/-- Witness for C1 at a concrete input: the wildcard rule appears first,
the `docs/*` rule later; both the hypotheses and the conclusion evaluate on
concrete data. -/
theorem resolve_last_match_wins_witness :
    findOwners [⟨["*"], {"alice"}⟩, ⟨["docs/*"], {"bob"}⟩, ⟨["x"], {"c"}⟩] "docs/a" =
      .ok (some {"bob"}) :=
  resolve_last_match_wins [⟨["*"], {"alice"}⟩] [⟨["x"], {"c"}⟩] ⟨["docs/*"], {"bob"}⟩ "docs/a"
    (by decide) (by decide) (by decide) (by decide)

/-- The per-file classification implemented by the loop body of
`check_file_coverage`: `none` means covered (no entry is emitted for the
file), `some` carries the uncovered entry.  The `error` branch is
unreachable for well-formed patterns. -/
def fileEntry (rules : List Rule) (approved : Finset String) (f : String) :
    Option UncoveredEntry :=
  match findOwners rules f with
  | .error _ => none
  | .ok none => some (.noOwner f)
  | .ok (some s) =>
    if s = ∅ then some (.noOwner f)
    else if approved ∩ s = ∅ then some (.insuffApproval f s)
    else none

theorem coverageScan_isOk (f : String) (l : List Rule) (acc : Option (Finset String))
    (hwf : ∀ r ∈ l, ∀ p ∈ r.patterns, wfPattern p) :
    ∃ fo, coverageScan f acc l = .ok fo := by
  induction l generalizing acc with
  | nil => exact ⟨acc, rfl⟩
  | cons r rest ih =>
    have hrest : ∀ r' ∈ rest, ∀ p ∈ r'.patterns, wfPattern p :=
      fun r' hr' => hwf r' (by simp [hr'])
    simp only [coverageScan, patternsMatch_of_wf f r.patterns (hwf r (by simp))]
    cases hm : r.patterns.any (fun p => matchBool f p) with
    | true =>
      by_cases ht : truthy (some r.owners) = true
      · exact ⟨some r.owners, by simp [ht]⟩
      · obtain ⟨fo, hfo⟩ := ih (some r.owners) hrest
        exact ⟨fo, by simp [ht, hfo]⟩
    | false =>
      by_cases ht : truthy acc = true
      · exact ⟨acc, by simp [ht]⟩
      · obtain ⟨fo, hfo⟩ := ih acc hrest
        exact ⟨fo, by simp [ht, hfo]⟩

theorem findOwners_isOk (rules : List Rule) (f : String)
    (hwf : ∀ r ∈ rules, ∀ p ∈ r.patterns, wfPattern p) :
    ∃ fo, findOwners rules f = .ok fo :=
  coverageScan_isOk f rules.reverse none (fun r hr => hwf r (List.mem_reverse.1 hr))

/-- On well-formed patterns, the evaluator is the `filterMap` of the
per-file classifier over the changed files, in input order. -/
theorem check_file_coverage_eq_filterMap (files : List String) (rules : List Rule)
    (approved : Finset String)
    (hwf : ∀ r ∈ rules, ∀ p ∈ r.patterns, wfPattern p) :
    check_file_coverage files rules approved =
      .ok (files.filterMap (fileEntry rules approved)) := by
  induction files with
  | nil => rfl
  | cons f fs ih =>
    obtain ⟨fo, hfo⟩ := findOwners_isOk rules f hwf
    simp only [check_file_coverage, List.filterMap_cons, fileEntry, hfo]
    cases fo with
    | none => simp [ih, Except.map]
    | some s =>
      by_cases hs : s = ∅
      · simp [hs, ih, Except.map]
      · by_cases hi : approved ∩ s = ∅
        · simp [hs, hi, ih, Except.map]
        · simp [hs, hi, ih, Except.map]

/-- On well-formed rules with non-empty owner sets, the per-file
classification is exactly one of: covered, uncovered with no owner (zero
rules match), uncovered with insufficient approval (owner set attached),
characterized by the resolver's result. -/
theorem fileEntry_spec (rules : List Rule) (approved : Finset String) (f : String)
    (hwf : ∀ r ∈ rules, ∀ p ∈ r.patterns, wfPattern p)
    (hown : ∀ r ∈ rules, r.owners ≠ ∅) :
    (fileEntry rules approved f = some (.noOwner f) ↔ findOwners rules f = .ok none)
    ∧ (∀ s : Finset String,
        fileEntry rules approved f = some (.insuffApproval f s) ↔
          findOwners rules f = .ok (some s) ∧ approved ∩ s = ∅)
    ∧ (fileEntry rules approved f = none ↔
        ∃ s : Finset String, findOwners rules f = .ok (some s) ∧ approved ∩ s ≠ ∅) := by
  have hfo := findOwners_find rules f hwf hown
  rcases hfind : rules.reverse.find? (fun r => ruleMatchesB r f) with _ | r
  · have hfo2 : findOwners rules f = .ok none := by rw [hfo, hfind]; rfl
    have hfe : fileEntry rules approved f = some (.noOwner f) := by
      simp [fileEntry, hfo2]
    refine ⟨by rw [hfe, hfo2]; simp, fun s => ?_, ?_⟩
    · rw [hfe, hfo2]; simp
    · rw [hfe, hfo2]; simp
  · have hfo2 : findOwners rules f = .ok (some r.owners) := by rw [hfo, hfind]; rfl
    have hmem : r ∈ rules := List.mem_reverse.1 (List.mem_of_find?_eq_some hfind)
    have hne : r.owners ≠ ∅ := hown r hmem
    by_cases hi : approved ∩ r.owners = ∅
    · have hfe : fileEntry rules approved f = some (.insuffApproval f r.owners) := by
        simp [fileEntry, hfo2, hne, hi]
      refine ⟨by rw [hfe, hfo2]; simp, fun s => ?_, ?_⟩
      · rw [hfe, hfo2]
        constructor
        · intro h
          simp only [Option.some.injEq, UncoveredEntry.insuffApproval.injEq] at h
          obtain ⟨-, hsr⟩ := h
          exact ⟨by rw [hsr], hsr ▸ hi⟩
        · rintro ⟨h1, h2⟩
          simp only [Except.ok.injEq, Option.some.injEq] at h1
          rw [h1]
      · rw [hfe, hfo2]
        constructor
        · intro h; exact absurd h (by simp)
        · rintro ⟨s, h1, h2⟩
          simp only [Except.ok.injEq, Option.some.injEq] at h1
          subst h1
          exact absurd hi h2
    · have hfe : fileEntry rules approved f = none := by
        simp [fileEntry, hfo2, hne, hi]
      refine ⟨by rw [hfe, hfo2]; simp, fun s => ?_, ?_⟩
      · rw [hfe, hfo2]
        constructor
        · intro h; exact absurd h (by simp)
        · rintro ⟨h1, h2⟩
          simp only [Except.ok.injEq, Option.some.injEq] at h1
          subst h1
          exact absurd h2 hi
      · rw [hfe, hfo2]
        exact ⟨fun _ => ⟨r.owners, rfl, hi⟩, fun _ => rfl⟩

/-- Claim C5: evaluator postcondition.  For every rule list (with the data
model's invariants), approver set and sequence of changed files: the
evaluator succeeds and yields the `filterMap` of a per-file classifier over
the input files (exactly one resolution per file, in input order); each
file is classified as exactly one of covered, uncovered-no-owner (the
resolver found no matching rule — a reason distinct by constructor from
the insufficient-approval reason), or uncovered-insufficient-approval with
the required owner set attached; and the overall verdict (an empty
uncovered list) holds iff every file is covered. -/
theorem evaluator_postcondition
    (files : List String) (rules : List Rule) (approved : Finset String)
    (hwf : ∀ r ∈ rules, ∀ p ∈ r.patterns, wfPattern p)
    (hown : ∀ r ∈ rules, r.owners ≠ ∅) :
    check_file_coverage files rules approved =
      .ok (files.filterMap (fileEntry rules approved))
    ∧ (∀ f : String,
        (fileEntry rules approved f = some (.noOwner f) ↔ findOwners rules f = .ok none)
        ∧ (∀ s : Finset String,
            fileEntry rules approved f = some (.insuffApproval f s) ↔
              findOwners rules f = .ok (some s) ∧ approved ∩ s = ∅)
        ∧ (fileEntry rules approved f = none ↔
            ∃ s : Finset String, findOwners rules f = .ok (some s) ∧ approved ∩ s ≠ ∅))
    ∧ (check_file_coverage files rules approved = .ok [] ↔
        ∀ f ∈ files, fileEntry rules approved f = none) := by
  have h1 := check_file_coverage_eq_filterMap files rules approved hwf
  refine ⟨h1, fun f => fileEntry_spec rules approved f hwf hown, ?_⟩
  rw [h1]
  simp [List.filterMap_eq_nil_iff]

/-- Witness for C5 at concrete inputs: one covered file, one file with no
owner, one file with insufficient approval. -/
theorem evaluator_postcondition_witness :
    check_file_coverage ["docs/a.md", "code.py"] (parse_codeowners "docs/* @bob") {"alice"} =
      .ok ((["docs/a.md", "code.py"]).filterMap
        (fileEntry (parse_codeowners "docs/* @bob") {"alice"})) :=
  (evaluator_postcondition ["docs/a.md", "code.py"] (parse_codeowners "docs/* @bob") {"alice"}
    (by decide) (by decide)).1

/-- Claim C2 (code evaluated at the failing input): with rules
`* @alice` then `/docs/** @bob`, the file `docs/readme.md` is reported
covered when `alice` approved and uncovered requiring `alice` when `bob`
approved — the opposite of the claim, because the expanded pattern
`docs/**/*` requires at least three path segments under `Path.match`
(whose `**` behaves like a single-segment `*`), so the later rule never
matches the two-segment path and the wildcard rule wins. -/
theorem docs_fixture_code_behavior :
    parse_codeowners "* @alice\n/docs/** @bob" =
      [⟨["*"], {"alice"}⟩, ⟨["docs/**/*"], {"bob"}⟩]
    ∧ check_file_coverage ["docs/readme.md"]
        (parse_codeowners "* @alice\n/docs/** @bob") {"alice"} = .ok []
    ∧ check_file_coverage ["docs/readme.md"]
        (parse_codeowners "* @alice\n/docs/** @bob") {"bob"} =
        .ok [.insuffApproval "docs/readme.md" {"alice"}] := by
  refine ⟨by decide, by decide, by decide⟩

/-- Claim C3 (code evaluated at the failing input): the rule parsed from
the root-anchored pattern `/foo.txt` stores the stripped pattern
`foo.txt`, and `Path.match` of a relative pattern is right-anchored, so
the rule matches `dir/foo.txt` as well as the root-level `foo.txt` —
contradicting the claim that only the root-level file matches.  (The
unanchored half of the claim does hold: `foo.txt` matches at the root and
at any depth.) -/
theorem anchored_pattern_code_behavior :
    parse_codeowners "/foo.txt @a" = [⟨["foo.txt"], {"a"}⟩]
    ∧ pathMatch "foo.txt" "foo.txt" = .ok true
    ∧ pathMatch "dir/foo.txt" "foo.txt" = .ok true
    ∧ findOwners (parse_codeowners "/foo.txt @a") "dir/foo.txt" = .ok (some {"a"})
    ∧ parse_codeowners "foo.txt @a" = [⟨["foo.txt", "**/foo.txt"], {"a"}⟩]
    ∧ findOwners (parse_codeowners "foo.txt @a") "dir/sub/foo.txt" = .ok (some {"a"}) := by
  refine ⟨by decide, by decide, by decide, by decide, by decide, by decide⟩

/-- Claim C4 (code evaluated at the failing input): the rule parsed from
`src/**` expands to `src/**/*` and `**/src/**/*`, each of which needs at
least three (resp. four) path segments under `Path.match`, so the
two-segment file `src/a.go` is NOT matched (contradicting the claim),
while `src/sub/b.go` is matched and the literal `src` is not. -/
theorem dir_wildcard_code_behavior :
    parse_codeowners "src/** @a" = [⟨["src/**/*", "**/src/**/*"], {"a"}⟩]
    ∧ findOwners (parse_codeowners "src/** @a") "src/a.go" = .ok none
    ∧ findOwners (parse_codeowners "src/** @a") "src/sub/b.go" = .ok (some {"a"})
    ∧ findOwners (parse_codeowners "src/** @a") "src" = .ok none := by
  refine ⟨by decide, by decide, by decide, by decide⟩

/-- Counterexample to claim C6 as stated: the owner token `x@y` has no
leading `@` marker, so stripping only a leading marker would keep it as
`x@y`; the code instead removes every `@` and records the owner `xy`. -/
theorem leading_marker_strip_counterexample :
    parse_codeowners "* x@y" = [⟨["*"], {"xy"}⟩]
    ∧ ({"xy"} : Finset String) ≠ {"x@y"} := by
  refine ⟨by decide, by decide⟩

/-- Claim C6 as amended: when parsing a rule line, every owner token
containing `/` is dropped and every remaining token has every `@`
character removed (not only a leading one) before being collected into the
owner set; in particular `* @org/team @alice` yields exactly `{alice}`. -/
theorem team_filter_and_marker_removal :
    (∀ (ownerStrings : List (List Char)) (u : String),
        u ∈ ownersOf ownerStrings ↔
          ∃ o ∈ ownerStrings, ('/' ∉ o) ∧ u = String.mk (stripMarkers o))
    ∧ parse_codeowners "* @org/team @alice" = [⟨["*"], {"alice"}⟩]
    ∧ parse_codeowners "* x@y @alice" = [⟨["*"], {"xy", "alice"}⟩] := by
  refine ⟨?_, by decide, by decide⟩
  intro ownerStrings u
  simp only [ownersOf, List.mem_toFinset, List.mem_map, List.mem_filter]
  constructor
  · rintro ⟨o, ⟨ho, hc⟩, rfl⟩
    refine ⟨o, ho, ?_, rfl⟩
    intro hmem
    rw [Bool.not_eq_true', ← Bool.not_eq_true] at hc
    exact hc (List.elem_iff.2 hmem)
  · rintro ⟨o, ho, hc, rfl⟩
    refine ⟨o, ⟨ho, ?_⟩, rfl⟩
    rw [Bool.not_eq_true', ← Bool.not_eq_true]
    intro helem
    exact hc (List.elem_iff.1 helem)

/-- Membership in the union fold of `get_approved_users`. -/
theorem mem_foldl_union (pages : List (List Review)) (init : Finset String) (u : String) :
    u ∈ pages.foldl (fun acc page => acc ∪ approvedInPage page) init ↔
      u ∈ init ∨ ∃ page ∈ pages, u ∈ approvedInPage page := by
  induction pages generalizing init with
  | nil => simp
  | cons page rest ih =>
    simp only [List.foldl_cons, ih, Finset.mem_union, List.mem_cons]
    constructor
    · rintro (⟨h | h⟩ | ⟨pg, hpg, hu⟩)
      · exact Or.inl h
      · exact Or.inr ⟨page, Or.inl rfl, h⟩
      · exact Or.inr ⟨pg, Or.inr hpg, hu⟩
    · rintro (h | ⟨pg, (rfl | hpg), hu⟩)
      · exact Or.inl (Or.inl h)
      · exact Or.inl (Or.inr hu)
      · exact Or.inr ⟨pg, hpg, hu⟩

/-- Claim C9: the approver set is exactly the set of users having at least
one review with state exactly `APPROVED` across all pages; membership only
depends on the presence of such a review, so a later review by the same
user with a different state (in the same run) never removes an approval,
and appending further pages never shrinks the set. -/
theorem approvals_accumulated_never_retracted :
    (∀ (pages : List (List Review)) (u : String),
        u ∈ get_approved_users pages ↔
          ∃ page ∈ pages, ∃ rv ∈ page, rv.state = "APPROVED" ∧ rv.user = u)
    ∧ (∀ (pages extra : List (List Review)),
        get_approved_users pages ⊆ get_approved_users (pages ++ extra)) := by
  have hpage : ∀ (page : List Review) (u : String),
      u ∈ approvedInPage page ↔ ∃ rv ∈ page, rv.state = "APPROVED" ∧ rv.user = u := by
    intro page u
    simp only [approvedInPage, List.mem_toFinset, List.mem_map, List.mem_filter]
    constructor
    · rintro ⟨rv, ⟨hrv, hst⟩, rfl⟩
      exact ⟨rv, hrv, by simpa using hst, rfl⟩
    · rintro ⟨rv, hrv, hst, rfl⟩
      exact ⟨rv, ⟨hrv, by simpa using hst⟩, rfl⟩
  have hmem : ∀ (pages : List (List Review)) (u : String),
      u ∈ get_approved_users pages ↔
        ∃ page ∈ pages, ∃ rv ∈ page, rv.state = "APPROVED" ∧ rv.user = u := by
    intro pages u
    rw [get_approved_users, mem_foldl_union]
    simp only [Finset.not_mem_empty, false_or]
    constructor
    · rintro ⟨pg, hpg, hu⟩
      exact ⟨pg, hpg, (hpage pg u).1 hu⟩
    · rintro ⟨pg, hpg, hu⟩
      exact ⟨pg, hpg, (hpage pg u).2 hu⟩
  refine ⟨hmem, fun pages extra u hu => ?_⟩
  rw [hmem] at hu
  obtain ⟨pg, hpg, hrv⟩ := hu
  rw [hmem]
  exact ⟨pg, List.mem_append.2 (Or.inl hpg), hrv⟩

/-- Claim C10: marker stripping removes `@` from every position of an
owner token (`a@b` becomes `ab`), a token consisting solely of `@` becomes
the empty-string owner, and the line `* @` therefore produces a retained
rule whose sole owner is the empty string. -/
theorem marker_removed_everywhere_empty_owner :
    String.mk (stripMarkers "a@b".toList) = "ab"
    ∧ String.mk (stripMarkers "@".toList) = ""
    ∧ parse_codeowners "* @" = [⟨["*"], {""}⟩] := by
  refine ⟨by decide, by decide, by decide⟩

/-- Claim C7: a line whose tokenization fails (malformed quoting) and a
line whose owner set is empty after team filtering are each skipped and
never added to the rule set, while parsing continues and returns the rules
produced from all other lines.  (The parse itself is a total function: no
malformed line makes it fail; warnings are logging only and not
modelled.) -/
theorem malformed_or_ownerless_line_skipped
    (pre post : List (List Char)) (bad : List Char)
    (hbad : (∃ e, shlexSplit (pyStrip (stripComment bad)) = .error e) ∨
            (∃ rawPattern ownerStrings,
              shlexSplit (pyStrip (stripComment bad)) = .ok (rawPattern :: ownerStrings) ∧
              ownersOf ownerStrings = ∅)) :
    parseLines (pre ++ bad :: post) = parseLines (pre ++ post) := by
  have hnone : parseLineL bad = none := by
    simp only [parseLineL]
    rcases hbad with ⟨e, he⟩ | ⟨rp, os, hok, hempty⟩
    · have hne : (pyStrip (stripComment bad)).isEmpty = false := by
        cases hl : pyStrip (stripComment bad) with
        | nil =>
          rw [hl] at he
          exact Except.noConfusion he
        | cons a t => rfl
      simp [hne, he]
    · have hne : (pyStrip (stripComment bad)).isEmpty = false := by
        cases hl : pyStrip (stripComment bad) with
        | nil =>
          rw [hl] at hok
          have : ([] : List (List Char)) = rp :: os := by
            have h2 : Except.ok ([] : List (List Char)) = .ok (rp :: os) := hok
            exact Except.ok.inj h2
          exact List.noConfusion this
        | cons a t => rfl
      simp [hne, hok, hempty]
  simp [parseLines, List.filterMap_append, List.filterMap_cons, hnone]

/-- Witness for C7 at concrete inputs: a line with an unclosed quote and a
line whose only owner is a team are both dropped, while the surrounding
lines parse normally. -/
theorem malformed_or_ownerless_line_skipped_witness :
    (parseLines ["* @alice".toList, chSQ :: "x @b".toList, "docs/* @c".toList] =
      parseLines ["* @alice".toList, "docs/* @c".toList])
    ∧ (parseLines ["* @alice".toList, "p @org/team".toList, "docs/* @c".toList] =
      parseLines ["* @alice".toList, "docs/* @c".toList]) :=
  ⟨malformed_or_ownerless_line_skipped ["* @alice".toList] ["docs/* @c".toList]
      (chSQ :: "x @b".toList) (Or.inl ⟨"No closing quotation", by decide⟩),
   malformed_or_ownerless_line_skipped ["* @alice".toList] ["docs/* @c".toList]
      "p @org/team".toList
      (Or.inr ⟨"p".toList, ["@org/team".toList], by decide, by decide⟩)⟩

theorem mem_pyStrip {c : Char} {l : List Char} (h : c ∈ pyStrip l) : c ∈ l := by
  unfold pyStrip at h
  rw [List.mem_reverse] at h
  have h2 : c ∈ (l.dropWhile isPySpace).reverse := (List.dropWhile_sublist _).subset h
  rw [List.mem_reverse] at h2
  exact (List.dropWhile_sublist _).subset h2

theorem stripComment_no_hash {c : Char} {l : List Char} (h : c ∈ stripComment l) :
    c ≠ '#' := by
  have h2 := List.mem_takeWhile_imp h
  simpa using h2

/-- No `#` can appear in any token produced by the tokenizer from a
`#`-free input (every emitted character is an input character or a
backslash). -/
theorem shlexRun_no_hash (input : List Char) :
    ∀ (st : ShState) (cur : List Char) (q : Bool) (toks : List (List Char)),
      (∀ c ∈ input, c ≠ '#') → (∀ c ∈ cur, c ≠ '#') →
      shlexRun st cur q input = .ok toks →
      ∀ tk ∈ toks, ∀ c ∈ tk, c ≠ '#' := by
  induction input with
  | nil =>
    intro st cur q toks _ hcur hrun
    cases st
    case ws =>
      simp only [shlexRun] at hrun
      cases hrun
      simp
    case word =>
      simp only [shlexRun] at hrun
      split at hrun
      · cases hrun; simp
      · cases hrun
        intro tk htk
        simp only [List.mem_singleton] at htk
        subst htk
        exact hcur
    case sq => exact Except.noConfusion hrun
    case dq => exact Except.noConfusion hrun
    case escW => exact Except.noConfusion hrun
    case escD => exact Except.noConfusion hrun
  | cons c t ih =>
    intro st cur q toks hin hcur hrun
    have hc : c ≠ '#' := hin c (by simp)
    have ht : ∀ c' ∈ t, c' ≠ '#' := fun c' h => hin c' (by simp [h])
    have hsnoc : ∀ c' ∈ cur ++ [c], c' ≠ '#' := by
      intro c' h
      rcases List.mem_append.1 h with h | h
      · exact hcur c' h
      · simp only [List.mem_singleton] at h
        subst h
        exact hc
    cases st
    case ws =>
      simp only [shlexRun] at hrun
      split_ifs at hrun
      · exact ih .ws [] false toks ht (by simp) hrun
      · exact ih .sq [] true toks ht (by simp) hrun
      · exact ih .dq [] true toks ht (by simp) hrun
      · exact ih .escW [] false toks ht (by simp) hrun
      · exact ih .word [c] false toks ht (by simpa using hc) hrun
    case word =>
      simp only [shlexRun] at hrun
      split_ifs at hrun
      · exact ih .ws [] false toks ht (by simp) hrun
      · cases hrec : shlexRun .ws [] false t with
        | error e =>
          rw [hrec] at hrun
          exact Except.noConfusion hrun
        | ok toks2 =>
          rw [hrec] at hrun
          simp only [Except.map] at hrun
          cases hrun
          intro tk htk
          rcases List.mem_cons.1 htk with rfl | htk2
          · exact hcur
          · exact ih .ws [] false toks2 ht (by simp) hrec tk htk2
      · exact ih .sq cur true toks ht hcur hrun
      · exact ih .dq cur true toks ht hcur hrun
      · exact ih .escW cur q toks ht hcur hrun
      · exact ih .word (cur ++ [c]) q toks ht hsnoc hrun
    case sq =>
      simp only [shlexRun] at hrun
      split_ifs at hrun
      · exact ih .word cur q toks ht hcur hrun
      · exact ih .sq (cur ++ [c]) q toks ht hsnoc hrun
    case dq =>
      simp only [shlexRun] at hrun
      split_ifs at hrun
      · exact ih .word cur q toks ht hcur hrun
      · exact ih .escD cur q toks ht hcur hrun
      · exact ih .dq (cur ++ [c]) q toks ht hsnoc hrun
    case escW =>
      simp only [shlexRun] at hrun
      exact ih .word (cur ++ [c]) q toks ht hsnoc hrun
    case escD =>
      simp only [shlexRun] at hrun
      split_ifs at hrun
      · exact ih .dq (cur ++ [c]) q toks ht hsnoc hrun
      · refine ih .dq (cur ++ [chBS, c]) q toks ht ?_ hrun
        intro c' h
        rcases List.mem_append.1 h with h | h
        · exact hcur c' h
        · rcases List.mem_cons.1 h with rfl | h
          · decide
          · simp only [List.mem_singleton] at h
            subst h
            exact hc

theorem shlexSplit_no_hash {l : List Char} {toks : List (List Char)}
    (hl : ∀ c ∈ l, c ≠ '#') (h : shlexSplit l = .ok toks) :
    ∀ tk ∈ toks, ∀ c ∈ tk, c ≠ '#' :=
  shlexRun_no_hash l .ws [] false toks hl (by simp) h

theorem expandPatterns_no_hash {raw : List Char} (hraw : ∀ c ∈ raw, c ≠ '#') :
    ∀ p ∈ expandPatterns raw, ∀ c ∈ p.toList, c ≠ '#' := by
  intro p hp
  have hcheck : ∀ l ∈ (if raw = ['*'] then [['*']]
      else if raw = ['*', '*'] then [['*', '*']]
      else if startsWithSlash raw then [raw.tail]
      else [raw, '*' :: '*' :: '/' :: raw]), ∀ c ∈ l, c ≠ '#' := by
    intro l hl
    split_ifs at hl
    · simp only [List.mem_singleton] at hl
      subst hl
      intro c hcm
      simp only [List.mem_singleton] at hcm
      subst hcm
      decide
    · simp only [List.mem_singleton] at hl
      subst hl
      intro c hcm
      rcases List.mem_cons.1 hcm with rfl | hcm
      · decide
      · simp only [List.mem_singleton] at hcm
        subst hcm
        decide
    · simp only [List.mem_singleton] at hl
      subst hl
      exact fun c hcm => hraw c ((List.tail_sublist raw).subset hcm)
    · rcases List.mem_cons.1 hl with rfl | hl
      · exact hraw
      · simp only [List.mem_singleton] at hl
        subst hl
        intro c hcm
        rcases List.mem_cons.1 hcm with rfl | hcm
        · decide
        · rcases List.mem_cons.1 hcm with rfl | hcm
          · decide
          · rcases List.mem_cons.1 hcm with rfl | hcm
            · decide
            · exact hraw c hcm
  simp only [expandPatterns, List.mem_map] at hp
  obtain ⟨l0, hl0, rfl⟩ := hp
  obtain ⟨l1, hl1, rfl⟩ := hl0
  have hl1free : ∀ c ∈ l1, c ≠ '#' := hcheck l1 hl1
  have : (String.mk (if endsWithDirWild l1 && l1 != ['*', '*'] then l1 ++ ['/', '*'] else l1)).toList
      = (if endsWithDirWild l1 && l1 != ['*', '*'] then l1 ++ ['/', '*'] else l1) := rfl
  rw [this]
  split_ifs
  · intro c hcm
    rcases List.mem_append.1 hcm with h | h
    · exact hl1free c h
    · rcases List.mem_cons.1 h with rfl | h
      · decide
      · simp only [List.mem_singleton] at h
        subst h
        decide
  · exact hl1free

theorem parseLineL_no_hash {line : List Char} {r : Rule}
    (h : parseLineL line = some r) :
    ∀ p ∈ r.patterns, ∀ c ∈ p.toList, c ≠ '#' := by
  simp only [parseLineL] at h
  by_cases he : (pyStrip (stripComment line)).isEmpty
  · simp [he] at h
  · rw [if_neg (by simpa using he)] at h
    cases hsh : shlexSplit (pyStrip (stripComment line)) with
    | error e =>
      rw [hsh] at h
      exact absurd h (by simp)
    | ok toks =>
      rw [hsh] at h
      cases toks with
      | nil => exact absurd h (by simp)
      | cons raw os =>
        dsimp only at h
        by_cases how : ownersOf os = ∅
        · rw [if_pos how] at h
          exact absurd h (by simp)
        · rw [if_neg how] at h
          have hr : r = ⟨expandPatterns raw, ownersOf os⟩ := (Option.some.inj h).symm
          have hlfree : ∀ c ∈ pyStrip (stripComment line), c ≠ '#' :=
            fun c hc => stripComment_no_hash (mem_pyStrip hc)
          have hrawfree : ∀ c ∈ raw, c ≠ '#' :=
            shlexSplit_no_hash hlfree hsh raw (by simp)
          rw [hr]
          exact expandPatterns_no_hash hrawfree

/-- Claim C8 as amended: comment removal strips everything from the first
`#` character onward, whether or not that `#` is escaped or quoted;
consequently no pattern of any parsed rule ever contains `#`. -/
theorem comment_stripping_unconditional (text : String) (r : Rule) (p : String)
    (hr : r ∈ parse_codeowners text) (hp : p ∈ r.patterns) :
    ∀ c ∈ p.toList, c ≠ '#' := by
  unfold parse_codeowners parseLines at hr
  rw [List.mem_filterMap] at hr
  obtain ⟨line, -, hline⟩ := hr
  exact parseLineL_no_hash hline p hp

/-- Witness for C8's amended theorem at a concrete input. -/
theorem comment_stripping_unconditional_witness :
    ((⟨["a/b", "**/a/b"], {"x"}⟩ : Rule) ∈ parse_codeowners "a/b @x"
      ∧ "a/b" ∈ (⟨["a/b", "**/a/b"], {"x"}⟩ : Rule).patterns)
    ∧ ∀ c ∈ "a/b".toList, c ≠ '#' :=
  ⟨⟨by decide, by decide⟩,
   comment_stripping_unconditional "a/b @x" ⟨["a/b", "**/a/b"], {"x"}⟩ "a/b"
     (by decide) (by decide)⟩

/-- Counterexample to claim C8 as stated: in the line `a\#b @x` the only
`#` is escaped, and in `'a#b' @x` the only `#` is quoted; the claim says
such a `#` does not begin a comment and is retained in the parsed pattern,
but the code strips from the first `#` unconditionally, leaving the
malformed fragments `a\` and `'a`, so both lines are skipped entirely and
no rule (let alone one whose pattern retains `#`) is produced. -/
theorem escaped_hash_stripped_counterexample :
    parse_codeowners (String.mk ('a' :: chBS :: '#' :: "b @x".toList)) = []
    ∧ parse_codeowners (String.mk (chSQ :: 'a' :: '#' :: 'b' :: chSQ :: " @x".toList)) = [] := by
  refine ⟨by decide, by decide⟩

end CheckApprovals
